import Mathlib

/-!
Shallow embedding of `pdf_chapter_splitter.py`.

The program splits a PDF into per-chapter files using its bookmark outline:
`get_pdf_outline_info` flattens the (possibly nested) outline to a list of
bookmarks, `calculate_page_ranges` turns the flat list plus the total page
count into 1-based page sections, and `perform_pdf_split` copies each
section's pages into an output file with a derived filename.

Python integers are modelled as `Int` where subtraction may go negative
(`end_index = next_page_index - 1`), page indices coming from the reader as
`Nat`.  A `PyPDF2.generic.Destination` whose page resolution
(`reader.get_page_number`) raises is modelled as a destination carrying
`none`; the warning that the source prints for such a node is returned as a
diagnostic string.  Python's stable `list.sort(key=...)` is modelled by the
stable `List.insertionSort`.
-/

namespace PdfSplit

/-- A flattened bookmark: the dicts produced by `get_pdf_outline_info`
(`{"title": ..., "page_index": ..., "full_path_name": ...}`). -/
structure FlatBookmark where
  title : String
  page_index : Nat
  full_path_name : String
deriving Repr, DecidableEq

/-- A section produced by `calculate_page_ranges`: 1-based inclusive page
range plus naming data. -/
structure Section where
  name : String
  full_path_name : String
  start_page : Nat
  end_page : Nat
deriving Repr, DecidableEq

/-- One raw item of the PyPDF2 outline list: either a `Destination` (with
title and the result of resolving its page, `none` when
`reader.get_page_number` raises) or a nested sub-list of items. -/
inductive OutlineItem where
  | dest (title : String) (page : Option Nat)
  | sub (items : List OutlineItem)

/-- Model of `get_pdf_outline_info(outline, reader, current_level,
max_level, parent_path)`.  Returns the flattened bookmarks together with the list of
warning diagnostics (titles of skipped, unresolvable nodes).  When a
destination resolves and the next raw item is a sub-list, the sub-list is
consumed (`i += 1` inside the `try`); when resolution raises, the `except`
branch skips neither emitting nor the sub-list, so the following sub-list is
seen as an ordinary item on the next iteration and ignored because it is not
a `Destination`. -/
def get_pdf_outline_info : List OutlineItem → Nat → Nat → String → List FlatBookmark × List String
  | [], _, _, _ => ([], [])
  | .sub _ :: rest, current_level, max_level, parent_path =>
      get_pdf_outline_info rest current_level max_level parent_path
  | .dest title none :: rest, current_level, max_level, parent_path =>
      let r := get_pdf_outline_info rest current_level max_level parent_path
      (r.1, title :: r.2)
  | .dest title (some page_index) :: .sub sub_outline :: rest, current_level, max_level, parent_path =>
      let full_path_name := if parent_path = "" then title else parent_path ++ " - " ++ title
      let entry : FlatBookmark := ⟨title, page_index, full_path_name⟩
      if max_level = 0 ∨ current_level < max_level then
        let rc := get_pdf_outline_info sub_outline (current_level + 1) max_level full_path_name
        let rr := get_pdf_outline_info rest current_level max_level parent_path
        (entry :: (rc.1 ++ rr.1), rc.2 ++ rr.2)
      else
        let rr := get_pdf_outline_info rest current_level max_level parent_path
        (entry :: rr.1, rr.2)
  | [.dest title (some page_index)], _, _, parent_path =>
      let full_path_name := if parent_path = "" then title else parent_path ++ " - " ++ title
      ([⟨title, page_index, full_path_name⟩], [])
  | .dest title (some page_index) :: .dest t2 p2 :: rest, current_level, max_level, parent_path =>
      let full_path_name := if parent_path = "" then title else parent_path ++ " - " ++ title
      let rr := get_pdf_outline_info (.dest t2 p2 :: rest) current_level max_level parent_path
      (⟨title, page_index, full_path_name⟩ :: rr.1, rr.2)

/-- The sort key of `outline_info.sort(key=lambda x: x["page_index"])`. -/
def bookmarkLE (a b : FlatBookmark) : Prop := a.page_index ≤ b.page_index

instance : DecidableRel bookmarkLE := fun a b => Nat.decLe a.page_index b.page_index

instance : IsTotal FlatBookmark bookmarkLE := ⟨fun a b => Nat.le_total a.page_index b.page_index⟩

instance : IsTrans FlatBookmark bookmarkLE := ⟨fun _ _ _ => Nat.le_trans⟩

/-- Python's `list.sort` is stable; a stable ascending sort by `page_index`
is exactly `insertionSort bookmarkLE`. -/
def sortBookmarks (l : List FlatBookmark) : List FlatBookmark := List.insertionSort bookmarkLE l

/-- The loop body of `calculate_page_ranges`, running over the sorted list.
`end_index` is `total_pages - 1` for the last item and the next item's
`page_index - 1` otherwise; arithmetic is over `Int` as in Python. -/
def rangesAux : List FlatBookmark → Nat → List Section
  | [], _ => []
  | [item], total_pages =>
      let start_index := item.page_index
      let end_index : Int := (total_pages : Int) - 1
      if (start_index : Int) ≤ end_index then
        [⟨item.title, item.full_path_name, start_index + 1, (end_index + 1).toNat⟩]
      else
        [⟨item.title, item.full_path_name, start_index + 1, total_pages⟩]
  | item :: next :: rest, total_pages =>
      let start_index := item.page_index
      let end_index : Int := (next.page_index : Int) - 1
      if (start_index : Int) ≤ end_index then
        ⟨item.title, item.full_path_name, start_index + 1, (end_index + 1).toNat⟩
          :: rangesAux (next :: rest) total_pages
      else
        rangesAux (next :: rest) total_pages

/-- Model of `calculate_page_ranges(outline_info, total_pages)`: sort by page index,
then emit one section per bookmark whose range is non-degenerate, with the
last bookmark always emitted. -/
def calculate_page_ranges (outline_info : List FlatBookmark) (total_pages : Nat) : List Section :=
  rangesAux (sortBookmarks outline_info) total_pages

/-- Model of `re.sub(r'[\\/:*?"<>|]', '', name)`: remove characters illegal in
filenames. -/
def cleanName (s : String) : String :=
  ⟨s.data.filter fun c =>
    ¬ (c = '\\' ∨ c = '/' ∨ c = ':' ∨ c = '*' ∨ c = '?' ∨ c = '"' ∨ c = '<' ∨ c = '>' ∨ c = '|')⟩

/-- Model of `len(str(n))`: the number of decimal digits of `n` (as Python prints a
non-negative int). -/
def numDigits (n : Nat) : Nat := (toString n).length

/-- Model of `f"{n:0{width}d}"` for `n ≥ 0`: decimal representation left-padded with
zeros to `width`. -/
def zeroPad (width n : Nat) : String :=
  let s := toString n
  ⟨List.replicate (width - s.length) '0' ++ s.data⟩

/-- Model of `perform_pdf_split(reader, sections, output_dir,
add_sequence, max_level)`.  The reader is abstracted by its page count; a written output
file is modelled as its filename together with the 0-based indices of the
pages copied into it, in order.  Sections failing the range validation are
skipped (`continue`), without affecting the enumeration index `i` used for
the sequence prefix. -/
def perform_pdf_split (num_reader_pages : Nat) (sections : List Section)
    (add_sequence : Bool) (max_level : Nat) : List (String × List Nat) :=
  let total_sections := sections.length
  let num_digits := numDigits total_sections
  sections.enum.filterMap fun p =>
    let i := p.1
    let s := p.2
    let start_page_index : Int := (s.start_page : Int) - 1
    let end_page_index : Int := (s.end_page : Int) - 1
    if start_page_index < 0 ∨ end_page_index ≥ (num_reader_pages : Int)
        ∨ start_page_index > end_page_index then
      none
    else
      let name_to_clean := if max_level ≠ 1 then s.full_path_name else s.name
      let cleaned_name := cleanName name_to_clean
      let output_filename :=
        if add_sequence then zeroPad num_digits (i + 1) ++ "_" ++ cleaned_name ++ ".pdf"
        else cleaned_name ++ ".pdf"
      some (output_filename, List.range' (s.start_page - 1) (s.end_page + 1 - s.start_page))

/-- The 1-based pages `[start_page, end_page]` of a section (what the Split
Executor copies, in 1-based numbering). -/
def sectionPages (s : Section) : List Nat :=
  List.range' s.start_page (s.end_page + 1 - s.start_page)

/-- A proper outline tree: a titled node with a resolvable-or-not page
target and ordered children (the spec's `OutlineNode`). -/
inductive OTree where
  | node (title : String) (page : Option Nat) (children : List OTree)

/-- Encode a forest of outline trees in the raw PyPDF2 sibling-list form,
where a node's children appear as a nested sub-list immediately following
the node's own `Destination`. -/
def encodeForest : List OTree → List OutlineItem
  | [] => []
  | .node t p [] :: rest => .dest t p :: encodeForest rest
  | .node t p (c :: cs) :: rest =>
      .dest t p :: .sub (encodeForest (c :: cs)) :: encodeForest rest

/-- Every node of the forest has a resolvable page target. -/
def allResolvable : List OTree → Bool
  | [] => true
  | .node _ p cs :: rest => p.isSome && allResolvable cs && allResolvable rest

/-- The flattener as the spec describes it (§4.1), on proper trees: emit the
node (with its full path name) before its children, recurse into children
exactly when the node has children and the depth limit allows, append the
recursion's results right after the node's entry, then continue with the
later siblings. -/
def flattenSpec : List OTree → Nat → Nat → String → List FlatBookmark
  | [], _, _, _ => []
  | .node title page children :: rest, current_level, depth_limit, parent_path =>
      let full_path_name := if parent_path = "" then title else parent_path ++ " - " ++ title
      let own : List FlatBookmark :=
        match page with
        | some page_index => [⟨title, page_index, full_path_name⟩]
        | none => []
      let childEntries :=
        if children.isEmpty = false ∧ (depth_limit = 0 ∨ current_level < depth_limit) then
          flattenSpec children (current_level + 1) depth_limit full_path_name
        else []
      own ++ childEntries ++ flattenSpec rest current_level depth_limit parent_path

/-! ### Helper lemmas about the range calculator -/

theorem rangesAux_ne_nil (total : Nat) : ∀ (l : List FlatBookmark), l ≠ [] → rangesAux l total ≠ []
  | [], h => absurd rfl h
  | [_], _ => by
      simp only [rangesAux]
      split <;> simp
  | _ :: y :: rest, _ => by
      simp only [rangesAux]
      split
      · simp
      · exact rangesAux_ne_nil total (y :: rest) (by simp)

theorem rangesAux_head_start (total : Nat) : ∀ (x : FlatBookmark) (rest : List FlatBookmark),
    List.Chain' bookmarkLE (x :: rest) →
    (rangesAux (x :: rest) total).head?.map Section.start_page = some (x.page_index + 1)
  | _, [], _ => by
      simp only [rangesAux]
      split <;> simp
  | x, y :: rest, h => by
      have hxy : x.page_index ≤ y.page_index := (List.chain'_cons.mp h).1
      simp only [rangesAux]
      split
      · simp
      · rename_i hcond
        have heq : x.page_index = y.page_index := by omega
        rw [rangesAux_head_start total y rest (List.chain'_cons.mp h).2, heq]

theorem rangesAux_getLast? (total : Nat) : ∀ (l : List FlatBookmark),
    (rangesAux l total).getLast? =
      l.getLast?.map fun b => (⟨b.title, b.full_path_name, b.page_index + 1, total⟩ : Section)
  | [] => rfl
  | [x] => by
      simp only [rangesAux]
      split
      · rename_i hcond
        have : ((total : Int) - 1 + 1).toNat = total := by omega
        simp [this]
      · simp
  | x :: y :: rest => by
      rw [List.getLast?_cons_cons]
      rw [← rangesAux_getLast? total (y :: rest)]
      simp only [rangesAux]
      split
      · have hne := rangesAux_ne_nil total (y :: rest) (by simp)
        cases heq : rangesAux (y :: rest) total with
        | nil => exact absurd heq hne
        | cons b l' => exact List.getLast?_cons_cons
      · rfl

theorem rangesAux_chain' (total : Nat) : ∀ (l : List FlatBookmark),
    List.Chain' bookmarkLE l →
    List.Chain' (fun a b : Section => a.start_page < b.start_page) (rangesAux l total) ∧
    List.Chain' (fun a b : Section => a.end_page + 1 = b.start_page) (rangesAux l total)
  | [], _ => by simp [rangesAux]
  | [x], _ => by
      simp only [rangesAux]
      split <;> simp
  | x :: y :: rest, h => by
      have hxy : x.page_index ≤ y.page_index := (List.chain'_cons.mp h).1
      have htail := (List.chain'_cons.mp h).2
      have ih := rangesAux_chain' total (y :: rest) htail
      have hhead := rangesAux_head_start total y rest htail
      simp only [rangesAux]
      split
      · rename_i hcond
        have hlt : x.page_index < y.page_index := by omega
        have hend : ((y.page_index : Int) - 1 + 1).toNat = y.page_index := by omega
        constructor
        · rw [List.chain'_cons']
          refine ⟨?_, ih.1⟩
          intro b hb
          have : b.start_page = y.page_index + 1 := by
            cases hh : (rangesAux (y :: rest) total).head? with
            | none => rw [hh] at hb; cases hb
            | some => rw [hh] at hhead hb; cases hb; simpa using hhead
          simp only [this]
          omega
        · rw [List.chain'_cons']
          refine ⟨?_, ih.2⟩
          intro b hb
          have : b.start_page = y.page_index + 1 := by
            cases hh : (rangesAux (y :: rest) total).head? with
            | none => rw [hh] at hb; cases hb
            | some => rw [hh] at hhead hb; cases hb; simpa using hhead
          simp only [this, hend]
      · exact ih

theorem rangesAux_flatten (total : Nat) : ∀ (x : FlatBookmark) (rest : List FlatBookmark),
    List.Chain' (fun a b : FlatBookmark => a.page_index < b.page_index) (x :: rest) →
    (∀ b ∈ x :: rest, b.page_index < total) →
    ((rangesAux (x :: rest) total).map sectionPages).flatten
      = List.range' (x.page_index + 1) (total - x.page_index)
  | x, [], _, hlt => by
      have hx : x.page_index < total := hlt x (by simp)
      have hcond : (x.page_index : Int) ≤ (total : Int) - 1 := by omega
      simp only [rangesAux, if_pos hcond]
      have hend : ((total : Int) - 1 + 1).toNat = total := by omega
      have hcnt : total + 1 - (x.page_index + 1) = total - x.page_index := by omega
      simp [sectionPages, hend, hcnt]
  | x, y :: rest, h, hlt => by
      have hxy : x.page_index < y.page_index := (List.chain'_cons.mp h).1
      have htail := (List.chain'_cons.mp h).2
      have ih := rangesAux_flatten total y rest htail (fun b hb => hlt b (by simp [hb]))
      have hy : y.page_index < total := hlt y (by simp)
      have hcond : (x.page_index : Int) ≤ (y.page_index : Int) - 1 := by omega
      simp only [rangesAux, if_pos hcond]
      rw [List.map_cons, List.flatten_cons, ih]
      have hend : ((y.page_index : Int) - 1 + 1).toNat = y.page_index := by omega
      have hcnt : y.page_index + 1 - (x.page_index + 1) = y.page_index - x.page_index := by omega
      simp only [sectionPages, hend, hcnt]
      have := List.range'_append (x.page_index + 1) (y.page_index - x.page_index)
        (total - y.page_index) 1
      rw [show x.page_index + 1 + 1 * (y.page_index - x.page_index) = y.page_index + 1 by omega]
        at this
      rw [this, show total - y.page_index + (y.page_index - x.page_index) = total - x.page_index
        by omega]

theorem rangesAux_drop_head (total : Nat) (x y : FlatBookmark) (post : List FlatBookmark)
    (h : List.Chain' bookmarkLE (x :: y :: post)) (hyx : y.page_index ≤ x.page_index) :
    rangesAux (x :: y :: post) total = rangesAux (y :: post) total := by
  have hxy : x.page_index ≤ y.page_index := (List.chain'_cons.mp h).1
  have hc : ¬ ((x.page_index : Int) ≤ (y.page_index : Int) - 1) := by omega
  simp only [rangesAux, if_neg hc]

theorem rangesAux_drop (total : Nat) (x y : FlatBookmark) (hyx : y.page_index ≤ x.page_index) :
    ∀ (pre post : List FlatBookmark),
    List.Chain' bookmarkLE (pre ++ x :: y :: post) →
    rangesAux (pre ++ x :: y :: post) total = rangesAux (pre ++ y :: post) total := by
  intro pre
  induction pre with
  | nil =>
      intro post h
      exact rangesAux_drop_head total x y post h hyx
  | cons a pre' ih =>
      intro post h
      cases pre' with
      | nil =>
          simp only [List.cons_append, List.nil_append] at h ⊢
          have h1 := List.chain'_cons.mp h
          have hxy : x.page_index ≤ y.page_index := (List.chain'_cons.mp h1.2).1
          have hxyeq : x.page_index = y.page_index := Nat.le_antisymm hxy hyx
          have hc : ¬ ((y.page_index : Int) ≤ (y.page_index : Int) - 1) := by omega
          simp only [rangesAux]
          rw [hxyeq]
          simp only [if_neg hc]
      | cons b pre'' =>
          simp only [List.cons_append] at h ⊢
          have h1 := List.chain'_cons.mp h
          have ih' := ih post (by simpa using h1.2)
          simp only [List.cons_append] at ih'
          simp only [rangesAux]
          rw [ih']

/-! ### Facts about the stable sort -/

theorem sortBookmarks_sorted (l : List FlatBookmark) :
    List.Pairwise bookmarkLE (sortBookmarks l) :=
  List.sorted_insertionSort bookmarkLE l

theorem sortBookmarks_chain' (l : List FlatBookmark) :
    List.Chain' bookmarkLE (sortBookmarks l) :=
  (sortBookmarks_sorted l).chain'

theorem sortBookmarks_of_sorted {l : List FlatBookmark}
    (h : List.Pairwise bookmarkLE l) : sortBookmarks l = l :=
  List.Sorted.insertionSort_eq h

theorem sortBookmarks_eq_nil {l : List FlatBookmark} : sortBookmarks l = [] ↔ l = [] := by
  constructor
  · intro h
    have hlen := List.length_insertionSort bookmarkLE l
    rw [sortBookmarks] at h
    rw [h] at hlen
    exact List.length_eq_zero.mp hlen.symm
  · intro h
    simp [h, sortBookmarks]

theorem mem_sortBookmarks {l : List FlatBookmark} {b : FlatBookmark} :
    b ∈ sortBookmarks l ↔ b ∈ l :=
  List.mem_insertionSort bookmarkLE

/-! ### Claim theorems: the range calculator -/

/-- C1: for every non-empty bookmark list and `total_pages ≥ 1`,
`calculate_page_ranges` emits a section for the last bookmark in sorted page
order, with `start_page = start_index + 1` and `end_page = total_pages`
(this covers both the normal rule, whose `end_index + 1` is `total_pages`,
and the degenerate `start_index > end_index` rule); in particular for a
10-page document with a single bookmark at `page_index` 9 the emitted
section is pages 10–10, and the final bookmark is never silently lost. -/
theorem last_bookmark_never_lost (bs : List FlatBookmark) (total_pages : Nat)
    (hne : bs ≠ []) (htp : 1 ≤ total_pages) :
    (calculate_page_ranges bs total_pages ≠ [] ∧
      (calculate_page_ranges bs total_pages).getLast? =
        (sortBookmarks bs).getLast?.map
          fun b => (⟨b.title, b.full_path_name, b.page_index + 1, total_pages⟩ : Section)) ∧
    calculate_page_ranges [⟨"Only", 9, "Only"⟩] 10 = [⟨"Only", "Only", 10, 10⟩] := by
  refine ⟨⟨?_, rangesAux_getLast? total_pages (sortBookmarks bs)⟩, by decide⟩
  exact rangesAux_ne_nil total_pages _ (fun hs => hne (sortBookmarks_eq_nil.mp hs))

theorem last_bookmark_never_lost_witness :
    (calculate_page_ranges [⟨"Only", 9, "Only"⟩] 10 ≠ [] ∧
      (calculate_page_ranges [⟨"Only", 9, "Only"⟩] 10).getLast? =
        (sortBookmarks [⟨"Only", 9, "Only"⟩]).getLast?.map
          fun b => (⟨b.title, b.full_path_name, b.page_index + 1, 10⟩ : Section)) ∧
    calculate_page_ranges [⟨"Only", 9, "Only"⟩] 10 = [⟨"Only", "Only", 10, 10⟩] :=
  last_bookmark_never_lost [⟨"Only", 9, "Only"⟩] 10 (by decide) (by decide)

/-- C2: for every output of `calculate_page_ranges`, sections are in
ascending `start_page` order, adjacent sections are contiguous and
non-overlapping (`end_page + 1` equals the next section's `start_page`),
and the final section always extends to `total_pages`. -/
theorem sections_sorted_contiguous (bs : List FlatBookmark) (total_pages : Nat) :
    List.Chain' (fun a b : Section => a.start_page < b.start_page)
      (calculate_page_ranges bs total_pages) ∧
    List.Chain' (fun a b : Section => a.end_page + 1 = b.start_page)
      (calculate_page_ranges bs total_pages) ∧
    ∀ s : Section, (calculate_page_ranges bs total_pages).getLast? = some s →
      s.end_page = total_pages := by
  have hch := rangesAux_chain' total_pages (sortBookmarks bs) (sortBookmarks_chain' bs)
  refine ⟨hch.1, hch.2, ?_⟩
  intro s hs
  rw [calculate_page_ranges] at hs
  have hlast := rangesAux_getLast? total_pages (sortBookmarks bs)
  rw [hs] at hlast
  cases hb : (sortBookmarks bs).getLast? with
  | none => rw [hb] at hlast; simp at hlast
  | some b =>
      rw [hb] at hlast
      simp only [Option.map_some', Option.some.injEq] at hlast
      rw [hlast]

theorem sections_sorted_contiguous_witness :
    (calculate_page_ranges [⟨"Intro", 0, "Intro"⟩, ⟨"Body", 3, "Body"⟩] 10).getLast? =
      some ⟨"Body", "Body", 4, 10⟩ ∧
    (⟨"Body", "Body", 4, 10⟩ : Section).end_page = 10 :=
  ⟨by decide,
    (sections_sorted_contiguous [⟨"Intro", 0, "Intro"⟩, ⟨"Body", 3, "Body"⟩] 10).2.2
      ⟨"Body", "Body", 4, 10⟩ (by decide)⟩

/-- C4 counterexample: with duplicates a@0 and b@0 followed by c@2 in a
3-page document, the FIRST of the two bookmarks with identical
`page_index` — "a", which is followed by the later distinct page 2 — gets
no section at all; it is the second duplicate "b" that gets the valid
range, contrary to the claim. -/
theorem first_duplicate_cex :
    calculate_page_ranges [⟨"a", 0, "a"⟩, ⟨"b", 0, "b"⟩, ⟨"c", 2, "c"⟩] 3 =
      [⟨"b", "b", 1, 2⟩, ⟨"c", "c", 3, 3⟩] ∧
    ∀ s ∈ calculate_page_ranges [⟨"a", 0, "a"⟩, ⟨"b", 0, "b"⟩, ⟨"c", 2, "c"⟩] 3,
      s.name ≠ "a" := by decide

/-- C4 (amended): in a sorted bookmark list, a non-final item whose
`start_index` exceeds its computed `end_index` (the next item's
`page_index - 1`) is dropped — the output equals the output computed
without that item, so no section is emitted for it; of two bookmarks with
identical `page_index` followed by a later distinct page, it is the second
that still gets a valid range (shown by the concrete conjunct). -/
theorem degenerate_nonfinal_dropped (pre post : List FlatBookmark) (x y : FlatBookmark)
    (total_pages : Nat)
    (hsorted : List.Chain' bookmarkLE (pre ++ x :: y :: post))
    (hdegen : (y.page_index : Int) - 1 < (x.page_index : Int)) :
    calculate_page_ranges (pre ++ x :: y :: post) total_pages =
      calculate_page_ranges (pre ++ y :: post) total_pages ∧
    calculate_page_ranges [⟨"a", 0, "a"⟩, ⟨"b", 0, "b"⟩, ⟨"c", 2, "c"⟩] 3 =
      [⟨"b", "b", 1, 2⟩, ⟨"c", "c", 3, 3⟩] := by
  constructor
  · have hyx : y.page_index ≤ x.page_index := by omega
    have hpair : List.Pairwise bookmarkLE (pre ++ x :: y :: post) :=
      List.chain'_iff_pairwise.mp hsorted
    have hsub : List.Sublist (pre ++ y :: post) (pre ++ x :: y :: post) :=
      List.Sublist.append_left (List.sublist_cons_self x (y :: post)) pre
    have hpair' : List.Pairwise bookmarkLE (pre ++ y :: post) := hpair.sublist hsub
    rw [calculate_page_ranges, calculate_page_ranges,
      sortBookmarks_of_sorted hpair, sortBookmarks_of_sorted hpair']
    exact rangesAux_drop total_pages x y hyx pre post hsorted
  · decide

theorem degenerate_nonfinal_dropped_witness :
    (calculate_page_ranges [⟨"a", 0, "a"⟩, ⟨"b", 0, "b"⟩, ⟨"c", 2, "c"⟩] 3 =
      calculate_page_ranges [⟨"b", 0, "b"⟩, ⟨"c", 2, "c"⟩] 3) ∧
    calculate_page_ranges [⟨"a", 0, "a"⟩, ⟨"b", 0, "b"⟩, ⟨"c", 2, "c"⟩] 3 =
      [⟨"b", "b", 1, 2⟩, ⟨"c", "c", 3, 3⟩] :=
  degenerate_nonfinal_dropped [] [⟨"c", 2, "c"⟩] ⟨"a", 0, "a"⟩ ⟨"b", 0, "b"⟩ 3
    (by simp [List.chain'_cons, bookmarkLE]) (by decide)

/-- C7 counterexample: bookmarks at page_index 0 and 7 in a 5-page
document: the first sorted bookmark targets 0 and no item is dropped (both
are emitted), yet concatenating the sections' page ranges gives pages 1..7,
not the document's 1..5. -/
theorem roundtrip_cex :
    (sortBookmarks [⟨"a", 0, "a"⟩, ⟨"b", 7, "b"⟩]).head?.map FlatBookmark.page_index =
      some 0 ∧
    List.Chain' (fun u v : FlatBookmark => u.page_index < v.page_index)
      (sortBookmarks [⟨"a", 0, "a"⟩, ⟨"b", 7, "b"⟩]) ∧
    ((calculate_page_ranges [⟨"a", 0, "a"⟩, ⟨"b", 7, "b"⟩] 5).map sectionPages).flatten ≠
      List.range' 1 5 := by
  refine ⟨by decide, ?_, by decide⟩
  rw [show sortBookmarks [⟨"a", 0, "a"⟩, ⟨"b", 7, "b"⟩] =
    [⟨"a", 0, "a"⟩, ⟨"b", 7, "b"⟩] from by decide, List.chain'_pair]
  decide

/-- C7 (amended): when the first sorted bookmark targets page_index 0, no
item is dropped (sorted page indices strictly increase), and every bookmark
targets an existing page (`page_index < total_pages`, as the document's
page resolver guarantees), concatenating the page ranges of all emitted
sections in order reproduces exactly the pages 1..total_pages. -/
theorem roundtrip_contiguous (bs : List FlatBookmark) (total_pages : Nat)
    (hhead : (sortBookmarks bs).head?.map FlatBookmark.page_index = some 0)
    (hstrict : List.Chain' (fun u v : FlatBookmark => u.page_index < v.page_index)
      (sortBookmarks bs))
    (hin : ∀ b ∈ bs, b.page_index < total_pages) :
    ((calculate_page_ranges bs total_pages).map sectionPages).flatten =
      List.range' 1 total_pages := by
  cases hsb : sortBookmarks bs with
  | nil => rw [hsb] at hhead; simp at hhead
  | cons x rest =>
      rw [hsb] at hhead hstrict
      have hx : x.page_index = 0 := by simpa using hhead
      have hin' : ∀ b ∈ x :: rest, b.page_index < total_pages := by
        intro b hb
        exact hin b (mem_sortBookmarks.mp (hsb ▸ hb))
      rw [calculate_page_ranges, hsb,
        rangesAux_flatten total_pages x rest hstrict hin', hx]
      simp

theorem roundtrip_contiguous_witness :
    ((calculate_page_ranges [⟨"Intro", 0, "Intro"⟩, ⟨"Body", 3, "Body"⟩] 10).map
      sectionPages).flatten = List.range' 1 10 :=
  roundtrip_contiguous [⟨"Intro", 0, "Intro"⟩, ⟨"Body", 3, "Body"⟩] 10
    (by decide)
    (by
      rw [show sortBookmarks [⟨"Intro", 0, "Intro"⟩, ⟨"Body", 3, "Body"⟩] =
        [⟨"Intro", 0, "Intro"⟩, ⟨"Body", 3, "Body"⟩] from by decide, List.chain'_pair]
      decide)
    (by decide)


/-! ### Claim theorems: the outline flattener -/

/-- C3 counterexample: node "A" is unresolvable and is followed by its
child sub-list containing "A1" (resolvable, at the depth limit 0 =
unlimited).  The flatten records the diagnostic for "A" and continues with
the sibling "B", but "A1" — a child of the failed node — is NOT flattened,
contrary to the claim that recursion is conditioned only on the depth
limit. -/
theorem failed_node_children_cex :
    get_pdf_outline_info
        [.dest "A" none, .sub [.dest "A1" (some 2)], .dest "B" (some 5)] 1 0 ""
      = ([⟨"B", 5, "B"⟩], ["A"]) ∧
    ∀ e ∈ (get_pdf_outline_info
        [.dest "A" none, .sub [.dest "A1" (some 2)], .dest "B" (some 5)] 1 0 "").1,
      e.title ≠ "A1" := by
  have h : get_pdf_outline_info
      [.dest "A" none, .sub [.dest "A1" (some 2)], .dest "B" (some 5)] 1 0 ""
      = ([⟨"B", 5, "B"⟩], ["A"]) := by
    simp [get_pdf_outline_info]
  refine ⟨h, ?_⟩
  rw [h]
  decide

/-- C3 (amended): when resolving a node's target fails, the flattener
records a diagnostic, emits no FlatBookmark for the node, and does not
abort — the later siblings are still flattened — but the failed node's
children (the sub-list following it) are skipped entirely and contribute
nothing: the `except` path bypasses both the recursion and the sub-list
consumption, and the bare sub-list is then ignored by the loop because it
is not a `Destination`. -/
theorem failed_node_skips_children (title : String) (sub_outline rest : List OutlineItem)
    (current_level max_level : Nat) (parent_path : String) :
    (get_pdf_outline_info (.dest title none :: .sub sub_outline :: rest)
        current_level max_level parent_path).1 =
      (get_pdf_outline_info rest current_level max_level parent_path).1 ∧
    (get_pdf_outline_info (.dest title none :: .sub sub_outline :: rest)
        current_level max_level parent_path).2 =
      title :: (get_pdf_outline_info rest current_level max_level parent_path).2 := by
  constructor <;> simp [get_pdf_outline_info]

/-! ### Refinement of the flattener to the spec's tree traversal -/

theorem encodeForest_eq_nil : ∀ (l : List OTree), encodeForest l = [] → l = []
  | [], _ => rfl
  | .node _ _ [] :: _, h => by simp [encodeForest] at h
  | .node _ _ (_ :: _) :: _, h => by simp [encodeForest] at h

theorem encodeForest_shape : ∀ (l : List OTree),
    encodeForest l = [] ∨ ∃ t p tail, encodeForest l = .dest t p :: tail
  | [] => Or.inl (by simp [encodeForest])
  | .node t p [] :: rest => Or.inr ⟨t, p, encodeForest rest, by simp [encodeForest]⟩
  | .node t p (c :: cs) :: rest =>
      Or.inr ⟨t, p, .sub (encodeForest (c :: cs)) :: encodeForest rest, by simp [encodeForest]⟩

theorem get_dest_cons (t : String) (idx : Nat) (l : List OutlineItem)
    (current_level max_level : Nat) (parent_path : String)
    (hl : l = [] ∨ ∃ t2 p2 tail, l = OutlineItem.dest t2 p2 :: tail) :
    (get_pdf_outline_info (.dest t (some idx) :: l) current_level max_level parent_path).1 =
      (⟨t, idx, if parent_path = "" then t else parent_path ++ " - " ++ t⟩ : FlatBookmark)
        :: (get_pdf_outline_info l current_level max_level parent_path).1 := by
  rcases hl with h | ⟨t2, p2, tail, h⟩ <;> subst h <;> simp [get_pdf_outline_info]

/-- C5: for every outline tree with all targets resolvable, the flattener
emits entries exactly as the spec's depth-first pre-order traversal does:
each node's own FlatBookmark comes before its children's entries, which
follow immediately, honoring sibling order, with `full_path_name` the
parent's path joined to the title with " - " (or just the title at top
level) — `flattenSpec` is that traversal, written from the spec's words. -/
theorem flatten_preorder (f : List OTree) :
    ∀ (current_level depth_limit : Nat) (parent_path : String),
    allResolvable f = true →
    (get_pdf_outline_info (encodeForest f) current_level depth_limit parent_path).1 =
      flattenSpec f current_level depth_limit parent_path := by
  induction f using encodeForest.induct with
  | case1 =>
      intro cl ml pp _
      simp [encodeForest, get_pdf_outline_info, flattenSpec]
  | case2 t p rest ih =>
      intro cl ml pp hres
      simp only [allResolvable, Bool.and_eq_true] at hres
      obtain ⟨⟨hp, -⟩, hrest⟩ := hres
      obtain ⟨idx, hidx⟩ := Option.isSome_iff_exists.mp hp
      subst hidx
      rw [show encodeForest (OTree.node t (some idx) [] :: rest) =
        .dest t (some idx) :: encodeForest rest from by simp [encodeForest]]
      rw [get_dest_cons t idx _ cl ml pp (encodeForest_shape rest), ih cl ml pp hrest]
      simp [flattenSpec]
  | case3 t p c cs rest ih1 ih2 =>
      intro cl ml pp hres
      simp only [allResolvable, Bool.and_eq_true] at hres
      obtain ⟨⟨hp, hcs⟩, hrest⟩ := hres
      obtain ⟨idx, hidx⟩ := Option.isSome_iff_exists.mp hp
      subst hidx
      rw [show encodeForest (OTree.node t (some idx) (c :: cs) :: rest) =
        .dest t (some idx) :: .sub (encodeForest (c :: cs)) :: encodeForest rest from by
          simp [encodeForest]]
      by_cases hdep : ml = 0 ∨ cl < ml
      · simp only [get_pdf_outline_info, if_pos hdep]
        rw [ih1 (cl + 1) ml (if pp = "" then t else pp ++ " - " ++ t) hcs,
          ih2 cl ml pp hrest]
        simp [flattenSpec, hdep]
      · simp only [get_pdf_outline_info, if_neg hdep]
        rw [ih2 cl ml pp hrest]
        simp [flattenSpec, hdep]

theorem flatten_preorder_witness :
    (get_pdf_outline_info
        (encodeForest [.node "A" (some 0) [.node "A.1" (some 2) []], .node "B" (some 5) []])
        1 0 "").1 =
      flattenSpec [.node "A" (some 0) [.node "A.1" (some 2) []], .node "B" (some 5) []] 1 0 "" :=
  flatten_preorder [.node "A" (some 0) [.node "A.1" (some 2) []], .node "B" (some 5) []]
    1 0 "" (by simp [allResolvable])

/-! ### Claim theorems: the split executor -/

/-- C6: every file written by the Split Executor has a filename built from
the base name — `full_path_name` when the depth limit is not 1, the plain
title otherwise — with the characters \\ / : * ? " < > | removed
(`cleanName`), preceded, when sequence numbering is enabled, by the
zero-padded 1-based position of the section among the emitted sections
(width = number of digits of the total section count) and an underscore,
and followed by ".pdf". -/
theorem split_filename_spec (num_reader_pages : Nat) (sections : List Section)
    (add_sequence : Bool) (max_level : Nat) (fname : String) (pages : List Nat)
    (hmem : (fname, pages) ∈ perform_pdf_split num_reader_pages sections add_sequence max_level) :
    ∃ i s, sections[i]? = some s ∧
      fname = (if add_sequence then zeroPad (numDigits sections.length) (i + 1) ++ "_" else "")
        ++ cleanName (if max_level ≠ 1 then s.full_path_name else s.name) ++ ".pdf" := by
  rw [perform_pdf_split] at hmem
  simp only [List.mem_filterMap] at hmem
  obtain ⟨⟨i, s⟩, hin, heq⟩ := hmem
  refine ⟨i, s, List.mem_enum_iff_getElem?.mp hin, ?_⟩
  dsimp only at heq
  split at heq
  · cases heq
  · simp only [Option.some.injEq, Prod.mk.injEq] at heq
    obtain ⟨h1, -⟩ := heq
    rw [← h1]
    cases add_sequence <;> simp [String.append_assoc]

theorem split_filename_spec_witness :
    ∃ i s, [(⟨"Intro", "Intro", 1, 3⟩ : Section), ⟨"Body", "Body", 4, 10⟩][i]? = some s ∧
      "1_Intro.pdf" =
        (if true then
          zeroPad (numDigits ([(⟨"Intro", "Intro", 1, 3⟩ : Section),
            ⟨"Body", "Body", 4, 10⟩] : List Section).length) (i + 1) ++ "_"
        else "")
        ++ cleanName (if (1 : Nat) ≠ 1 then s.full_path_name else s.name) ++ ".pdf" :=
  split_filename_spec 10 [⟨"Intro", "Intro", 1, 3⟩, ⟨"Body", "Body", 4, 10⟩] true 1
    "1_Intro.pdf" [0, 1, 2] (by decide)

end PdfSplit
